import Mathlib

/-!
Verification of the equity-analysis core (`src/analysis.py`, `src/app.py`)
against its natural-language specification.  Numeric values are modelled by
exact rationals (`ℚ`); a candidate distribution-fit attempt that raises an
exception in Python is modelled by an `Option` that is `none`.
-/

namespace Equity

/-! ## Distribution fitter (`get_best_fit_distribution`, analysis.py lines 59-117)

Each candidate distribution's attempt inside the `try` block either raises
(modelled by `outcome = none`) or produces a fitted parameter tuple and an
SSE value (modelled by `outcome = some (sse, params)`).  The parameter tuple
is abstracted as a list of rationals; the distribution object is abstracted
by its name. -/

/-- One candidate distribution together with the outcome of running the
`try` body on it: `none` when `fit`/`pdf` raises, otherwise the computed
SSE and fitted parameter tuple. -/
structure FitAttempt where
  name : String
  outcome : Option (ℚ × List ℚ)
  deriving Repr, DecidableEq

/-- The loop state of `get_best_fit_distribution`: the current best
distribution (by name), its parameters, and the best SSE so far, where
`none` encodes the `np.inf` sentinel `best_sse` starts at. -/
structure FitState where
  best_distribution : String
  best_params : List ℚ
  best_sse : Option ℚ
  deriving Repr, DecidableEq

/-- Initial loop state, from analysis.py lines 84-86:
`best_distribution = st.norm`, `best_params = (0.0, 1.0)`, `best_sse = np.inf`. -/
def fitInit : FitState :=
  { best_distribution := "norm", best_params := [0, 1], best_sse := none }

/-- The comparison `best_sse > sse` where `best_sse` may be the `np.inf`
sentinel (`none`). -/
def sseLtBest (sse : ℚ) (best : Option ℚ) : Bool :=
  match best with
  | none => true
  | some b => decide (sse < b)

/-- One iteration of the candidate loop (analysis.py lines 90-115): a raising
candidate leaves state and results untouched (`except Exception: pass`); a
succeeding candidate is appended to `results` and replaces the best when
`best_sse > sse > 0` (line 109). -/
def fitStep (acc : FitState × List (String × ℚ × List ℚ)) (a : FitAttempt) :
    FitState × List (String × ℚ × List ℚ) :=
  match a.outcome with
  | none => acc
  | some (sse, params) =>
    let res2 := acc.2 ++ [(a.name, sse, params)]
    if sseLtBest sse acc.1.best_sse ∧ 0 < sse then
      ({ best_distribution := a.name, best_params := params, best_sse := some sse }, res2)
    else
      (acc.1, res2)

/-- The fitter `get_best_fit_distribution` (analysis.py lines 59-117) as a
fold of the candidate loop over the list of attempts, returning the final
best state and the accumulated `results` list. -/
def get_best_fit_distribution (attempts : List FitAttempt) :
    FitState × List (String × ℚ × List ℚ) :=
  attempts.foldl fitStep (fitInit, [])

/-- The loop invariant behind claim C1: any recorded best SSE is strictly
positive. -/
theorem fitFold_best_sse_pos (attempts : List FitAttempt)
    (st : FitState) (res : List (String × ℚ × List ℚ))
    (hst : ∀ s : ℚ, st.best_sse = some s → 0 < s) :
    ∀ s : ℚ, (attempts.foldl fitStep (st, res)).1.best_sse = some s → 0 < s := by
  induction attempts generalizing st res with
  | nil => simpa using hst
  | cons a rest ih =>
    intro s hs
    rw [List.foldl_cons] at hs
    rcases ha : a.outcome with _ | ⟨sse, params⟩
    · exact ih st res hst s (by simpa [fitStep, ha] using hs)
    · by_cases hupd : sseLtBest sse st.best_sse ∧ 0 < sse
      · refine ih _ _ ?_ s (by simpa [fitStep, ha, if_pos hupd] using hs)
        intro s' hs'
        simp only [Option.some.injEq] at hs'
        simpa [← hs'] using hupd.2
      · exact ih st (res ++ [(a.name, sse, params)]) hst s
          (by simpa [fitStep, ha, if_neg hupd] using hs)

/-- The accumulated results of the fold are the initial accumulator followed
by one entry per succeeding attempt, in order (claim C9's invariant). -/
theorem fitFold_results (attempts : List FitAttempt)
    (st : FitState) (res : List (String × ℚ × List ℚ)) :
    (attempts.foldl fitStep (st, res)).2 =
      res ++ attempts.filterMap
        (fun a => a.outcome.map (fun sp => (a.name, sp.1, sp.2))) := by
  induction attempts generalizing st res with
  | nil => simp
  | cons a rest ih =>
    rcases ha : a.outcome with _ | ⟨sse, params⟩
    · simp [fitStep, ha, ih]
    · by_cases hupd : sseLtBest sse st.best_sse ∧ 0 < sse
      · simp [fitStep, ha, if_pos hupd, ih]
      · simp [fitStep, ha, if_neg hupd, ih]

/-- When every attempt raises, the fold never moves off its accumulator. -/
theorem fitFold_all_fail (attempts : List FitAttempt)
    (acc : FitState × List (String × ℚ × List ℚ))
    (h : ∀ a ∈ attempts, a.outcome = none) :
    attempts.foldl fitStep acc = acc := by
  induction attempts generalizing acc with
  | nil => rfl
  | cons a rest ih =>
    have ha : a.outcome = none := h a (List.mem_cons_self a rest)
    rw [List.foldl_cons]
    have hstep : fitStep acc a = acc := by simp [fitStep, ha]
    rw [hstep]
    exact ih acc (fun b hb => h b (List.mem_cons_of_mem a hb))

/-- C1: the fitter never selects as best a candidate whose computed SSE is
exactly 0: whatever the attempts, a recorded best SSE is strictly positive
(so the `np.inf` sentinel is never replaced by 0, even when other candidates
have positive SSE), and a loop step changes the current best only when the
attempt succeeded with an SSE that is strictly positive and strictly below
the current best SSE (`best_sse > sse > 0`, analysis.py line 109). -/
theorem zero_sse_never_selected_best (attempts : List FitAttempt) :
    (∀ s : ℚ, (get_best_fit_distribution attempts).1.best_sse = some s → 0 < s) ∧
    (∀ (st : FitState) (res : List (String × ℚ × List ℚ)) (a : FitAttempt),
      (fitStep (st, res) a).1 ≠ st →
      ∃ sse params, a.outcome = some (sse, params) ∧ 0 < sse ∧
        sseLtBest sse st.best_sse = true ∧ (fitStep (st, res) a).1.best_sse = some sse) := by
  constructor
  · exact fitFold_best_sse_pos attempts fitInit [] (by intro s hs; simp [fitInit] at hs)
  · intro st res a hne
    rcases ha : a.outcome with _ | ⟨sse, params⟩
    · exact absurd (by simp [fitStep, ha]) hne
    · by_cases hupd : sseLtBest sse st.best_sse ∧ 0 < sse
      · exact ⟨sse, params, rfl, hupd.2, by simpa using hupd.1,
          by simp [fitStep, ha, if_pos hupd]⟩
      · exact absurd (by simp [fitStep, ha, if_neg hupd]) hne

/-- Witness for C1: on a run where "norm" fits with SSE 0 and "t" with SSE 2,
the best SSE is 2 (hence positive), and the step on the "t" attempt updates
the best precisely because 2 is positive and below the sentinel. -/
theorem zero_sse_never_selected_best_witness :
    (0 : ℚ) < 2 ∧
    ∃ sse params,
      (FitAttempt.mk "t" (some (2, [1, 0, 1]))).outcome = some (sse, params) ∧ 0 < sse ∧
      sseLtBest sse fitInit.best_sse = true ∧
      (fitStep (fitInit, []) (FitAttempt.mk "t" (some (2, [1, 0, 1])))).1.best_sse = some sse :=
  ⟨(zero_sse_never_selected_best
        [FitAttempt.mk "norm" (some (0, [0, 1])), FitAttempt.mk "t" (some (2, [1, 0, 1]))]).1
      2 (by decide),
   (zero_sse_never_selected_best [FitAttempt.mk "t" (some (2, [1, 0, 1]))]).2
      fitInit [] (FitAttempt.mk "t" (some (2, [1, 0, 1]))) (by decide)⟩

/-- C8: when every candidate fails, the fitter returns the fallback: the
normal distribution with parameters (0, 1) as best, the `np.inf` sentinel
(`none`) as best SSE, and an empty results list. -/
theorem all_fail_returns_norm_fallback (attempts : List FitAttempt)
    (h : ∀ a ∈ attempts, a.outcome = none) :
    get_best_fit_distribution attempts =
      ({ best_distribution := "norm", best_params := [0, 1], best_sse := none }, []) :=
  fitFold_all_fail attempts (fitInit, []) h

/-- Witness for C8: two failing candidates yield the normal(0,1) fallback
with no recorded SSE. -/
theorem all_fail_returns_norm_fallback_witness :
    get_best_fit_distribution [FitAttempt.mk "norm" none, FitAttempt.mk "beta" none] =
      ({ best_distribution := "norm", best_params := [0, 1], best_sse := none }, []) :=
  all_fail_returns_norm_fallback
    [FitAttempt.mk "norm" none, FitAttempt.mk "beta" none] (by decide)

/-- C9: the fitter is a total function (it returns a state/results pair for
every attempt list, exceptions being absorbed by the per-candidate handler),
and its results list contains exactly the succeeding attempts, in attempt
order, with failing attempts entirely absent. -/
theorem results_exactly_successes (attempts : List FitAttempt) :
    (get_best_fit_distribution attempts).2 =
      attempts.filterMap (fun a => a.outcome.map (fun sp => (a.name, sp.1, sp.2))) := by
  simpa using fitFold_results attempts fitInit []

/-! ## Monte Carlo simulation (`monte_carlo_simulation`, analysis.py lines 119-144)

The random draw grid `simulated_returns` (a `(simulations, days)` matrix) is
passed in explicitly as a list of rows; the function body is deterministic
from there: growth factors `1 + r`, cumulative product along the time axis,
scaled by the last price.  Exact rationals replace floats, so every value of
the model is finite by construction. -/

/-- Helper for `np.cumprod`: running products with accumulator `acc`. -/
def cumprodAux (acc : ℚ) : List ℚ → List ℚ
  | [] => []
  | x :: xs => (acc * x) :: cumprodAux (acc * x) xs

/-- The model of `np.cumprod` on one row: entry `t` is the product of the
first `t+1` entries. -/
def cumprod (xs : List ℚ) : List ℚ := cumprodAux 1 xs

/-- The simulator body (analysis.py lines 136-144): growth factors
`1 + simulated_returns`, row-wise cumulative product, scaled by
`last_price`. -/
def monte_carlo_simulation (last_price : ℚ) (simulated_returns : List (List ℚ)) :
    List (List ℚ) :=
  simulated_returns.map
    (fun row => (cumprod (row.map (fun r => 1 + r))).map (fun g => last_price * g))

theorem cumprodAux_length (acc : ℚ) (xs : List ℚ) :
    (cumprodAux acc xs).length = xs.length := by
  induction xs generalizing acc with
  | nil => rfl
  | cons x xs ih => simp [cumprodAux, ih]

theorem cumprodAux_getD (acc : ℚ) (xs : List ℚ) (t : ℕ) (ht : t < xs.length) :
    (cumprodAux acc xs).getD t 0 = acc * (xs.take (t + 1)).prod := by
  induction xs generalizing acc t with
  | nil => simp at ht
  | cons x xs ih =>
    cases t with
    | zero => simp [cumprodAux]
    | succ t =>
      have ht' : t < xs.length := by simpa using ht
      simp only [cumprodAux, List.getD_cons_succ, List.take_succ_cons, List.prod_cons]
      rw [ih (acc * x) t ht']
      ring

theorem cumprod_getD (xs : List ℚ) (t : ℕ) (ht : t < xs.length) :
    (cumprod xs).getD t 0 = (xs.take (t + 1)).prod := by
  simpa using cumprodAux_getD 1 xs t ht

/-- Prefix products of factors that are all positive are positive. -/
theorem take_prod_pos (xs : List ℚ) (h : ∀ x ∈ xs, 0 < x) (t : ℕ) :
    0 < (xs.take t).prod :=
  List.prod_pos (fun x hx => h x (List.mem_of_mem_take hx))

/-- C2: on a draw grid of `M` rows of length `N`, the simulator returns an
`M × N` matrix whose cell at run `r`, step `t` is `last_price` times the
product of the growth factors `1 + draw` over the first `t+1` draws of run
`r`; and when the start price is positive and every draw exceeds −1, every
cell is strictly positive (finiteness is automatic in exact arithmetic). -/
theorem monte_carlo_shape_formula_positive (last_price : ℚ)
    (simulated_returns : List (List ℚ)) (M N : ℕ)
    (hM : simulated_returns.length = M)
    (hN : ∀ row ∈ simulated_returns, row.length = N) :
    (monte_carlo_simulation last_price simulated_returns).length = M ∧
    (∀ row ∈ monte_carlo_simulation last_price simulated_returns, row.length = N) ∧
    (∀ r t, r < M → t < N →
      ((monte_carlo_simulation last_price simulated_returns).getD r []).getD t 0 =
        last_price *
          (((simulated_returns.getD r []).map (fun d => 1 + d)).take (t + 1)).prod) ∧
    (0 < last_price →
      (∀ row ∈ simulated_returns, ∀ d ∈ row, -1 < d) →
      ∀ row ∈ monte_carlo_simulation last_price simulated_returns, ∀ v ∈ row, 0 < v) := by
  subst hM
  refine ⟨by simp [monte_carlo_simulation], ?_, ?_, ?_⟩
  · intro row hrow
    simp only [monte_carlo_simulation, List.mem_map] at hrow
    obtain ⟨src, hsrc, rfl⟩ := hrow
    simp [cumprod, cumprodAux_length, hN src hsrc]
  · intro r t hr ht
    have hrow : (monte_carlo_simulation last_price simulated_returns).getD r [] =
        (cumprod ((simulated_returns.getD r []).map (fun d => 1 + d))).map
          (fun g => last_price * g) := by
      have hr' : r < (monte_carlo_simulation last_price simulated_returns).length := by
        simpa [monte_carlo_simulation] using hr
      rw [List.getD_eq_getElem _ _ hr']
      simp only [monte_carlo_simulation, List.getElem_map]
      rw [List.getD_eq_getElem _ _ hr]
    rw [hrow]
    have htlen : t < ((simulated_returns.getD r []).map (fun d => 1 + d)).length := by
      rw [List.getD_eq_getElem _ _ hr]
      have := hN (simulated_returns[r]) (List.getElem_mem hr)
      simpa [this] using ht
    have htlen' : t < (cumprod ((simulated_returns.getD r []).map (fun d => 1 + d))).length := by
      simpa [cumprod, cumprodAux_length] using htlen
    rw [List.getD_eq_getElem _ _ (by simpa using htlen'), List.getElem_map,
      ← List.getD_eq_getElem _ 0 htlen', cumprod_getD _ t htlen]
  · intro hpos hdraw row hrow v hv
    simp only [monte_carlo_simulation, List.mem_map] at hrow
    obtain ⟨src, hsrc, rfl⟩ := hrow
    simp only [List.mem_map] at hv
    obtain ⟨g, hg, rfl⟩ := hv
    have hgpos : 0 < g := by
      simp only [cumprod] at hg
      obtain ⟨t, ht, rfl⟩ := List.getElem_of_mem hg
      have ht' : t < (src.map (fun d => 1 + d)).length := by
        simpa [cumprodAux_length] using ht
      rw [← List.getD_eq_getElem _ 0 ht, cumprodAux_getD 1 _ t ht', one_mul]
      refine take_prod_pos _ ?_ (t + 1)
      intro x hx
      simp only [List.mem_map] at hx
      obtain ⟨d, hd, rfl⟩ := hx
      have := hdraw src hsrc d hd
      linarith
    exact mul_pos hpos hgpos

/-- Witness for C2: on the 2×2 draw grid `[[1, 2], [0, 1]]` with start
price 100, the matrix has 2 rows, cell (0,1) equals 100 times the product of
the first two growth factors of run 0, and the concrete cell value 600 is
strictly positive. -/
theorem monte_carlo_shape_formula_positive_witness :
    (monte_carlo_simulation 100 [[(1 : ℚ), 2], [0, 1]]).length = 2 ∧
    ((monte_carlo_simulation 100 [[(1 : ℚ), 2], [0, 1]]).getD 0 []).getD 1 0 =
      100 * ((([[(1 : ℚ), 2], [0, 1]].getD 0 []).map
        (fun d => 1 + d)).take 2).prod ∧
    (0 : ℚ) < 600 :=
  ⟨(monte_carlo_shape_formula_positive 100 [[(1 : ℚ), 2], [0, 1]] 2 2
      (by decide) (by decide)).1,
   (monte_carlo_shape_formula_positive 100 [[(1 : ℚ), 2], [0, 1]] 2 2
      (by decide) (by decide)).2.2.1 0 1 (by decide) (by decide),
   (monte_carlo_shape_formula_positive 100 [[(1 : ℚ), 2], [0, 1]] 2 2
      (by decide) (by decide)).2.2.2 (by decide) (by decide)
      [200, 600] (by norm_num [monte_carlo_simulation, cumprod, cumprodAux])
      600 (by decide)⟩

/-- Counterexample to C3: with start price 100 and a single run whose first
draw is exactly −1, the returned matrix is `[[0, 0]]` — it contains
non-positive values, and the zero propagates into the later compounding step
with no clamping and no surfaced condition. -/
theorem simulator_no_clamp_counterexample :
    monte_carlo_simulation 100 [[-1, (0 : ℚ)]] = [[0, 0]] ∧
    ¬ (∀ row ∈ monte_carlo_simulation 100 [[-1, (0 : ℚ)]], ∀ v ∈ row, 0 < v) := by
  have h : monte_carlo_simulation 100 [[-1, (0 : ℚ)]] = [[0, 0]] := by
    norm_num [monte_carlo_simulation, cumprod, cumprodAux]
  refine ⟨h, fun hall => ?_⟩
  have h0 : (0 : ℚ) ∈ [(0 : ℚ), 0] := by simp
  have hrow : [(0 : ℚ), 0] ∈ monte_carlo_simulation 100 [[-1, (0 : ℚ)]] := by
    rw [h]; simp
  exact lt_irrefl 0 (hall [0, 0] hrow 0 h0)

/-- C3 amended: the simulator applies no clamping and surfaces no
data-quality condition: when the first draw of a run is ≤ −1 and the start
price is positive, the first cell of that run in the returned matrix is
non-positive, and it participates in later compounding unchanged. -/
theorem simulator_propagates_nonpositive (last_price : ℚ)
    (simulated_returns : List (List ℚ)) (r : ℕ)
    (hr : r < simulated_returns.length)
    (hlen : 0 < (simulated_returns.getD r []).length)
    (hd : (simulated_returns.getD r []).getD 0 0 ≤ -1)
    (hp : 0 < last_price) :
    ((monte_carlo_simulation last_price simulated_returns).getD r []).getD 0 0 ≤ 0 := by
  rcases hrowcases : simulated_returns.getD r [] with _ | ⟨d, rest⟩
  · rw [hrowcases] at hlen; simp at hlen
  · have hd' : d ≤ -1 := by rw [hrowcases] at hd; simpa using hd
    have hrow : (monte_carlo_simulation last_price simulated_returns).getD r [] =
        (cumprod ((simulated_returns.getD r []).map (fun x => 1 + x))).map
          (fun g => last_price * g) := by
      have hr' : r < (monte_carlo_simulation last_price simulated_returns).length := by
        simpa [monte_carlo_simulation] using hr
      rw [List.getD_eq_getElem _ _ hr']
      simp only [monte_carlo_simulation, List.getElem_map]
      rw [List.getD_eq_getElem _ _ hr]
    rw [hrow, hrowcases]
    simp only [List.map_cons, cumprod, cumprodAux, List.getD_cons_zero]
    nlinarith

/-- Witness for the amended C3: with start price 100 and draws `[[-1, 0]]`,
the first cell of run 0 is non-positive. -/
theorem simulator_propagates_nonpositive_witness :
    ((monte_carlo_simulation 100 [[-1, (0 : ℚ)]]).getD 0 []).getD 0 0 ≤ 0 :=
  simulator_propagates_nonpositive 100 [[-1, (0 : ℚ)]] 0
    (by decide) (by decide) (by decide) (by decide)

/-! ## Daily returns (`calculate_returns`, analysis.py lines 26-57)

The daily branch is `df[price_col].pct_change().dropna()`.  The price column
is modelled as the list of prices in time order; `pct_change` marks the
first entry `NaN` (here `none`) and computes `p_i / p_{i-1} - 1` for the
rest; `dropna` removes the `none` entries. -/

/-- Model of `Series.pct_change`: `none` (NaN) for the first observation,
`some (cur / prev - 1)` for every later one. -/
def pct_change (prices : List ℚ) : List (Option ℚ) :=
  match prices with
  | [] => []
  | p :: rest => none :: List.zipWith (fun prev cur => some (cur / prev - 1)) (p :: rest) rest

/-- Model of `Series.dropna`: keep exactly the non-NaN entries. -/
def dropna {α : Type} (xs : List (Option α)) : List α := xs.filterMap id

/-- The `daily` entry of `calculate_returns` (analysis.py line 37):
`pct_change` followed by `dropna`. -/
def calculate_returns_daily (prices : List ℚ) : List ℚ :=
  dropna (pct_change prices)

theorem dropna_zipWith_some (f : ℚ → ℚ → ℚ) (l1 l2 : List ℚ) :
    dropna (List.zipWith (fun a b => some (f a b)) l1 l2) = List.zipWith f l1 l2 := by
  induction l1 generalizing l2 with
  | nil => rfl
  | cons a l1 ih =>
    cases l2 with
    | nil => rfl
    | cons b l2 => simp [dropna, List.filterMap_cons, ← ih l2, dropna]

/-- The daily-return series is the pairwise fractional change of consecutive
prices. -/
theorem calculate_returns_daily_eq (prices : List ℚ) :
    calculate_returns_daily prices =
      List.zipWith (fun prev cur => cur / prev - 1) prices prices.tail := by
  cases prices with
  | nil => rfl
  | cons p rest =>
    simp only [calculate_returns_daily, pct_change, dropna, List.filterMap_cons, id]
    exact dropna_zipWith_some (fun prev cur => cur / prev - 1) (p :: rest) rest

/-- C5: for a price series of length `n ≥ 30` with strictly positive prices,
the daily return sample has length `n − 1` (the undefined first pct-change
entry is dropped) and its `i`-th value equals `p_{i+1} / p_i − 1` exactly
(hence within any tolerance, in particular 1e-9). -/
theorem daily_returns_length_values (prices : List ℚ) (n : ℕ)
    (hn : prices.length = n) (h30 : 30 ≤ n) (hpos : ∀ p ∈ prices, 0 < p) :
    (calculate_returns_daily prices).length = n - 1 ∧
    ∀ i, i + 1 < n →
      (calculate_returns_daily prices).getD i 0 =
        prices.getD (i + 1) 0 / prices.getD i 0 - 1 := by
  subst hn
  rw [calculate_returns_daily_eq]
  constructor
  · simp [List.length_zipWith, List.length_tail]
  · intro i hi
    have hlen : i < (List.zipWith (fun prev cur => cur / prev - 1)
        prices prices.tail).length := by
      simp [List.length_zipWith, List.length_tail]
      omega
    have hi' : i < prices.length := by omega
    rw [List.getD_eq_getElem _ _ hlen, List.getElem_zipWith,
      List.getD_eq_getElem _ _ hi', List.getD_eq_getElem _ _ hi]
    congr 1
    congr 1
    exact List.getElem_tail prices i (by simp [List.length_tail]; omega)

/-- Concrete 30-point positive price series used to witness C5. -/
def witnessPrices : List ℚ :=
  [1, 2, 3, 4, 5, 6, 7, 8, 9, 10, 11, 12, 13, 14, 15,
   16, 17, 18, 19, 20, 21, 22, 23, 24, 25, 26, 27, 28, 29, 30]

/-- Witness for C5: the 30-point series 1, 2, …, 30 has 29 daily returns and
its first return equals `p_1 / p_0 − 1`. -/
theorem daily_returns_length_values_witness :
    (calculate_returns_daily witnessPrices).length = 29 ∧
    (calculate_returns_daily witnessPrices).getD 0 0 =
      witnessPrices.getD 1 0 / witnessPrices.getD 0 0 - 1 :=
  ⟨(daily_returns_length_values witnessPrices 30 rfl (by omega) (by decide)).1,
   (daily_returns_length_values witnessPrices 30 rfl (by omega) (by decide)).2
     0 (by omega)⟩

/-! ## Drawdown (`calculate_drawdown`, analysis.py lines 154-166)

The price column is the input list; `prices.cummax()` is the running
maximum, and the drawdown is `(prices - peak) / peak` elementwise. -/

/-- Helper for `Series.cummax`: running maxima with accumulator `m`. -/
def cummaxAux (m : ℚ) : List ℚ → List ℚ
  | [] => []
  | x :: xs => (max m x) :: cummaxAux (max m x) xs

/-- Model of `Series.cummax` (analysis.py line 164). -/
def cummax : List ℚ → List ℚ
  | [] => []
  | x :: xs => x :: cummaxAux x xs

/-- The drawdown series (analysis.py line 165): `(prices - peak) / peak`
elementwise against the running maximum. -/
def calculate_drawdown (prices : List ℚ) : List ℚ :=
  List.zipWith (fun p pk => (p - pk) / pk) prices (cummax prices)

/-- Maximum of a list relative to a starting value, `foldl max`. -/
def listMax (a : ℚ) (xs : List ℚ) : ℚ := xs.foldl max a

/-- The maximum of the prices at indices `0..i`, the spec's `max(p_0..p_i)`. -/
def prefixMax (prices : List ℚ) (i : ℕ) : ℚ :=
  match prices with
  | [] => 0
  | p :: rest => listMax p (rest.take i)

theorem le_listMax_init (a : ℚ) (xs : List ℚ) : a ≤ listMax a xs := by
  induction xs generalizing a with
  | nil => exact le_refl a
  | cons x xs ih => exact le_trans (le_max_left a x) (ih (max a x))

theorem elem_le_listMax (a x : ℚ) (xs : List ℚ) (hx : x ∈ xs) : x ≤ listMax a xs := by
  induction xs generalizing a with
  | nil => simp at hx
  | cons y ys ih =>
    rcases List.mem_cons.mp hx with rfl | hmem
    · exact le_trans (le_max_right a x) (le_listMax_init (max a x) ys)
    · exact ih (max a y) hmem

theorem listMax_le (a b : ℚ) (xs : List ℚ) (ha : a ≤ b) (hxs : ∀ x ∈ xs, x ≤ b) :
    listMax a xs ≤ b := by
  induction xs generalizing a with
  | nil => exact ha
  | cons y ys ih =>
    exact ih (max a y) (max_le ha (hxs y (List.mem_cons_self y ys)))
      (fun x hx => hxs x (List.mem_cons_of_mem y hx))

theorem listMax_eq_init_or_mem (a : ℚ) (xs : List ℚ) :
    listMax a xs = a ∨ listMax a xs ∈ xs := by
  induction xs generalizing a with
  | nil => exact Or.inl rfl
  | cons y ys ih =>
    rcases ih (max a y) with h | h
    · rcases max_choice a y with hm | hm
      · exact Or.inl (by rw [listMax, List.foldl_cons, ← listMax] at *; rw [h, hm])
      · refine Or.inr (List.mem_cons.mpr (Or.inl ?_))
        rw [listMax, List.foldl_cons, ← listMax] at *; rw [h, hm]
    · exact Or.inr (List.mem_cons_of_mem y h)

theorem cummaxAux_length (m : ℚ) (xs : List ℚ) : (cummaxAux m xs).length = xs.length := by
  induction xs generalizing m with
  | nil => rfl
  | cons x xs ih => simp [cummaxAux, ih]

theorem cummaxAux_getD (m : ℚ) (xs : List ℚ) (t : ℕ) (ht : t < xs.length) :
    (cummaxAux m xs).getD t 0 = listMax m (xs.take (t + 1)) := by
  induction xs generalizing m t with
  | nil => simp at ht
  | cons x xs ih =>
    cases t with
    | zero => simp [cummaxAux, listMax]
    | succ t =>
      have ht' : t < xs.length := by simpa using ht
      simp only [cummaxAux, List.getD_cons_succ, List.take_succ_cons]
      rw [ih (max m x) t ht']
      simp [listMax]

theorem cummax_length (prices : List ℚ) : (cummax prices).length = prices.length := by
  cases prices with
  | nil => rfl
  | cons p rest => simp [cummax, cummaxAux_length]

theorem cummax_getD (prices : List ℚ) (i : ℕ) (hi : i < prices.length) :
    (cummax prices).getD i 0 = prefixMax prices i := by
  cases prices with
  | nil => simp at hi
  | cons p rest =>
    cases i with
    | zero => simp [cummax, prefixMax, listMax]
    | succ j =>
      have hj : j < rest.length := by simpa using hi
      simp only [cummax, List.getD_cons_succ, prefixMax]
      exact cummaxAux_getD p rest j hj

theorem prefixMax_take_mono (prices : List ℚ) (i j : ℕ) (hij : i ≤ j) :
    prefixMax prices i ≤ prefixMax prices j := by
  cases prices with
  | nil => exact le_refl 0
  | cons p rest =>
    simp only [prefixMax]
    refine listMax_le p _ (rest.take i) (le_listMax_init p (rest.take j)) ?_
    intro x hx
    have hsub : x ∈ rest.take j := by
      have : rest.take i = (rest.take j).take i := by
        rw [List.take_take, Nat.min_eq_left hij]
      exact List.take_subset i (rest.take j) (this ▸ hx)
    exact elem_le_listMax p x (rest.take j) hsub

theorem getD_le_prefixMax (prices : List ℚ) (i : ℕ) (hi : i < prices.length) :
    prices.getD i 0 ≤ prefixMax prices i := by
  cases prices with
  | nil => simp at hi
  | cons p rest =>
    cases i with
    | zero => exact le_listMax_init p (rest.take 0)
    | succ j =>
      have hj : j < rest.length := by simpa using hi
      simp only [List.getD_cons_succ, prefixMax]
      refine elem_le_listMax p _ (rest.take (j + 1)) ?_
      rw [List.getD_eq_getElem _ _ hj]
      have hjt : j < (rest.take (j + 1)).length := by
        simp [List.length_take]
        omega
      have heq : (rest.take (j + 1))[j] = rest[j] := by
        simp [List.getElem_take]
      exact heq ▸ List.getElem_mem hjt

theorem prefixMax_pos (prices : List ℚ) (hpos : ∀ p ∈ prices, 0 < p)
    (hne : prices ≠ []) (i : ℕ) : 0 < prefixMax prices i := by
  cases prices with
  | nil => exact absurd rfl hne
  | cons p rest =>
    rcases listMax_eq_init_or_mem p (rest.take i) with h | h
    · rw [prefixMax, h]
      exact hpos p (List.mem_cons_self p rest)
    · exact hpos _ (List.mem_cons_of_mem p (List.take_subset i rest h))

theorem prefixMax_le_of_global (prices : List ℚ) (i : ℕ) (hi : i < prices.length)
    (hglob : ∀ j, j < prices.length → prices.getD j 0 ≤ prices.getD i 0) :
    prefixMax prices i ≤ prices.getD i 0 := by
  cases prices with
  | nil => simp at hi
  | cons p rest =>
    have hbound : ∀ x ∈ (p :: rest), x ≤ (p :: rest).getD i 0 := by
      intro x hx
      obtain ⟨j, hj, rfl⟩ := List.getElem_of_mem hx
      have := hglob j hj
      rwa [List.getD_eq_getElem _ _ hj] at this
    simp only [prefixMax]
    refine listMax_le p _ (rest.take i) (hbound p (List.mem_cons_self p rest)) ?_
    intro x hx
    exact hbound x (List.mem_cons_of_mem p (List.take_subset i rest hx))

theorem drawdown_getD (prices : List ℚ) (i : ℕ) (hi : i < prices.length) :
    (calculate_drawdown prices).getD i 0 =
      (prices.getD i 0 - prefixMax prices i) / prefixMax prices i := by
  have hlen : i < (calculate_drawdown prices).length := by
    simp [calculate_drawdown, List.length_zipWith, cummax_length]
    omega
  have hcm : i < (cummax prices).length := by rw [cummax_length]; exact hi
  rw [List.getD_eq_getElem _ _ hlen]
  simp only [calculate_drawdown, List.getElem_zipWith]
  rw [List.getD_eq_getElem _ _ hi, ← List.getD_eq_getElem (cummax prices) 0 hcm,
    cummax_getD prices i hi]

/-- C6: the drawdown series has one value per observation, each value equals
`(p_i − max(p_0..p_i)) / max(p_0..p_i)`, every value is ≤ 0, the value at a
global maximum of the series is exactly 0, and the running peak is
monotonically non-decreasing. -/
theorem drawdown_spec (prices : List ℚ) (hne : prices ≠ [])
    (hpos : ∀ p ∈ prices, 0 < p) :
    (calculate_drawdown prices).length = prices.length ∧
    (∀ i, i < prices.length →
      (calculate_drawdown prices).getD i 0 =
        (prices.getD i 0 - prefixMax prices i) / prefixMax prices i) ∧
    (∀ i, i < prices.length → (calculate_drawdown prices).getD i 0 ≤ 0) ∧
    (∀ i, i < prices.length →
      (∀ j, j < prices.length → prices.getD j 0 ≤ prices.getD i 0) →
      (calculate_drawdown prices).getD i 0 = 0) ∧
    (∀ i j, i ≤ j → prefixMax prices i ≤ prefixMax prices j) := by
  refine ⟨?_, drawdown_getD prices, ?_, ?_, fun i j hij => prefixMax_take_mono prices i j hij⟩
  · simp [calculate_drawdown, List.length_zipWith, cummax_length]
  · intro i hi
    rw [drawdown_getD prices i hi]
    have hm : 0 < prefixMax prices i := prefixMax_pos prices hpos hne i
    have hle : prices.getD i 0 ≤ prefixMax prices i := getD_le_prefixMax prices i hi
    exact div_nonpos_iff.mpr (Or.inr ⟨by linarith, hm.le⟩)
  · intro i hi hglob
    rw [drawdown_getD prices i hi]
    have h1 : prices.getD i 0 ≤ prefixMax prices i := getD_le_prefixMax prices i hi
    have h2 : prefixMax prices i ≤ prices.getD i 0 := prefixMax_le_of_global prices i hi hglob
    have : prices.getD i 0 - prefixMax prices i = 0 := by linarith
    rw [this, zero_div]

/-- Witness for C6: on the series `[1, 3, 2]`, the drawdown has length 3, the
value at index 2 matches the peak formula and is ≤ 0, the value at the
global maximum (index 1) is 0, and the peak at index 0 is ≤ the peak at
index 2. -/
theorem drawdown_spec_witness :
    (calculate_drawdown [(1 : ℚ), 3, 2]).length = 3 ∧
    (calculate_drawdown [(1 : ℚ), 3, 2]).getD 2 0 =
      ([(1 : ℚ), 3, 2].getD 2 0 - prefixMax [(1 : ℚ), 3, 2] 2) /
        prefixMax [(1 : ℚ), 3, 2] 2 ∧
    (calculate_drawdown [(1 : ℚ), 3, 2]).getD 2 0 ≤ 0 ∧
    (calculate_drawdown [(1 : ℚ), 3, 2]).getD 1 0 = 0 ∧
    prefixMax [(1 : ℚ), 3, 2] 0 ≤ prefixMax [(1 : ℚ), 3, 2] 2 :=
  ⟨(drawdown_spec [(1 : ℚ), 3, 2] (by decide) (by decide)).1,
   (drawdown_spec [(1 : ℚ), 3, 2] (by decide) (by decide)).2.1 2 (by simp),
   (drawdown_spec [(1 : ℚ), 3, 2] (by decide) (by decide)).2.2.1 2 (by simp),
   (drawdown_spec [(1 : ℚ), 3, 2] (by decide) (by decide)).2.2.2.1 1 (by simp) (by decide),
   (drawdown_spec [(1 : ℚ), 3, 2] (by decide) (by decide)).2.2.2.2 0 2 (by omega)⟩

/-! ## Terminal percentiles (`calculate_percentiles`, analysis.py lines 146-152)

`np.percentile` with the default linear interpolation: sort the data
ascending, set `pos = q/100 * (n-1)`, and linearly interpolate between the
two neighbouring order statistics.  The final prices are the last column of
the simulation matrix (`simulation_paths[:, -1]`). -/

/-- Ascending sort of the data, the first step of `np.percentile`. -/
def np_sort (xs : List ℚ) : List ℚ := List.insertionSort (· ≤ ·) xs

/-- Linear interpolation of a sorted list at fractional position `pos`:
the value `s[⌊pos⌋] + (pos − ⌊pos⌋) · (s[⌊pos⌋+1] − s[⌊pos⌋])`, with the
upper index clipped to the list (the out-of-range neighbour falls back to
the lower value). -/
def interpAt (s : List ℚ) (pos : ℚ) : ℚ :=
  let i := (Int.floor pos).toNat
  let lo := s.getD i 0
  let hi := s.getD (i + 1) lo
  lo + (pos - (i : ℚ)) * (hi - lo)

/-- Model of `np.percentile(xs, q)` with the default linear method. -/
def np_percentile (xs : List ℚ) (q : ℚ) : ℚ :=
  let s := np_sort xs
  interpAt s (q / 100 * ((s.length : ℚ) - 1))

/-- The last column of the simulation matrix, `simulation_paths[:, -1]`
(analysis.py line 150). -/
def final_prices (paths : List (List ℚ)) : List ℚ :=
  paths.map (fun row => row.getLastD 0)

/-- The default percentile list of `calculate_percentiles`
(analysis.py line 146). -/
def analysisDefaultPercentiles : List ℚ := [1, 5, 10, 25, 50, 75, 90, 95, 99]

/-- The application layer's base percentile list (app.py line 41). -/
def appDefaultPercentiles : List ℚ := [1, 5, 10, 25, 50, 75, 90]

/-- The mapping `{p: np.percentile(final_prices, p) for p in percentiles}`
(analysis.py line 151), as an association list in percentile order. -/
def calculate_percentiles (paths : List (List ℚ)) (percentiles : List ℚ) :
    List (ℚ × ℚ) :=
  percentiles.map (fun p => (p, np_percentile (final_prices paths) p))

/-- `calculate_percentiles` as called with no explicit percentile list: the
default from the signature on analysis.py line 146 is used. -/
def calculate_percentiles_default (paths : List (List ℚ)) : List (ℚ × ℚ) :=
  calculate_percentiles paths analysisDefaultPercentiles

theorem np_sort_sorted (xs : List ℚ) : (np_sort xs).Sorted (· ≤ ·) :=
  List.sorted_insertionSort _ xs

theorem np_sort_length (xs : List ℚ) : (np_sort xs).length = xs.length :=
  (List.perm_insertionSort _ xs).length_eq

theorem sorted_getD_mono (s : List ℚ) (hs : s.Sorted (· ≤ ·)) (i j : ℕ)
    (hij : i ≤ j) (hj : j < s.length) (d1 d2 : ℚ) :
    s.getD i d1 ≤ s.getD j d2 := by
  have hi : i < s.length := lt_of_le_of_lt hij hj
  rw [List.getD_eq_get _ _ hi, List.getD_eq_get _ _ hj]
  exact hs.rel_get_of_le (Fin.mk_le_mk.mpr hij)

theorem floor_toNat_cast (pos : ℚ) (h0 : 0 ≤ pos) :
    ((Int.floor pos).toNat : ℚ) = (Int.floor pos : ℚ) := by
  have h : ((Int.floor pos).toNat : ℤ) = Int.floor pos :=
    Int.toNat_of_nonneg (Int.floor_nonneg.mpr h0)
  exact_mod_cast h

/-- The interpolated value lies between its two neighbouring order
statistics. -/
theorem interpAt_bounds (s : List ℚ) (hs : s.Sorted (· ≤ ·)) (pos : ℚ)
    (h0 : 0 ≤ pos) :
    s.getD (Int.floor pos).toNat 0 ≤ interpAt s pos ∧
    interpAt s pos ≤
      s.getD ((Int.floor pos).toNat + 1) (s.getD (Int.floor pos).toNat 0) := by
  have hcast := floor_toNat_cast pos h0
  set i := (Int.floor pos).toNat with hi
  set lo := s.getD i 0 with hlo
  set hi2 := s.getD (i + 1) lo with hhi
  have hfr0 : 0 ≤ pos - (i : ℚ) := by
    rw [hcast]
    have := Int.floor_le pos
    linarith
  have hfr1 : pos - (i : ℚ) ≤ 1 := by
    rw [hcast]
    have := Int.lt_floor_add_one pos
    linarith
  have hlohi : lo ≤ hi2 := by
    by_cases hb : i + 1 < s.length
    · exact sorted_getD_mono s hs i (i + 1) (Nat.le_succ i) hb 0 lo
    · rw [hhi, List.getD_eq_default _ _ (by omega)]
  constructor
  · simp only [interpAt, ← hi, ← hlo, ← hhi]
    nlinarith
  · simp only [interpAt, ← hi, ← hlo, ← hhi]
    nlinarith

/-- Linear interpolation over a sorted list is monotone in the position. -/
theorem interpAt_mono (s : List ℚ) (hs : s.Sorted (· ≤ ·)) (pos1 pos2 : ℚ)
    (h1 : 0 ≤ pos1) (h12 : pos1 ≤ pos2) (h2 : pos2 ≤ (s.length : ℚ) - 1) :
    interpAt s pos1 ≤ interpAt s pos2 := by
  have h1' : (0 : ℚ) ≤ pos2 := le_trans h1 h12
  have hcast1 := floor_toNat_cast pos1 h1
  have hcast2 := floor_toNat_cast pos2 h1'
  have hle : (Int.floor pos1).toNat ≤ (Int.floor pos2).toNat :=
    Int.toNat_le_toNat (Int.floor_le_floor h12)
  have hn2 : (Int.floor pos2).toNat < s.length := by
    have hfl : ((Int.floor pos2).toNat : ℚ) ≤ (s.length : ℚ) - 1 := by
      rw [hcast2]
      exact le_trans (Int.floor_le pos2) h2
    have : ((Int.floor pos2).toNat : ℚ) + 1 ≤ (s.length : ℚ) := by linarith
    exact_mod_cast this
  rcases Nat.eq_or_lt_of_le hle with heq | hlt
  · -- same interpolation cell: the slope is non-negative
    have hb := interpAt_bounds s hs pos1 h1
    set i := (Int.floor pos1).toNat with hidef
    have hlohi : s.getD i 0 ≤ s.getD (i + 1) (s.getD i 0) := by
      by_cases hb2 : i + 1 < s.length
      · exact sorted_getD_mono s hs i (i + 1) (Nat.le_succ i) hb2 0 _
      · have hd : s.getD (i + 1) (s.getD i 0) = s.getD i 0 :=
          List.getD_eq_default _ _ (by omega)
        exact le_of_eq hd.symm
    simp only [interpAt, ← hidef, ← heq]
    nlinarith
  · -- distinct cells: go through the order statistics between them
    have hup := (interpAt_bounds s hs pos1 h1).2
    have hdown := (interpAt_bounds s hs pos2 h1').1
    refine le_trans hup (le_trans ?_ hdown)
    exact sorted_getD_mono s hs ((Int.floor pos1).toNat + 1)
      ((Int.floor pos2).toNat) hlt hn2 _ _

/-- `np.percentile` is monotone in the requested percentile. -/
theorem np_percentile_mono (xs : List ℚ) (hne : xs ≠ []) (p q : ℚ)
    (hp : 0 ≤ p) (hpq : p ≤ q) (hq : q ≤ 100) :
    np_percentile xs p ≤ np_percentile xs q := by
  have hlen : 1 ≤ (np_sort xs).length := by
    rw [np_sort_length]
    exact List.length_pos.mpr hne
  have hN : (0 : ℚ) ≤ ((np_sort xs).length : ℚ) - 1 := by
    have : (1 : ℚ) ≤ ((np_sort xs).length : ℚ) := by exact_mod_cast hlen
    linarith
  apply interpAt_mono _ (np_sort_sorted xs)
  · positivity
  · have hdiv : p / 100 ≤ q / 100 := by linarith
    exact mul_le_mul_of_nonneg_right hdiv hN
  · have hdiv : q / 100 ≤ 1 := by linarith
    calc q / 100 * (((np_sort xs).length : ℚ) - 1)
        ≤ 1 * (((np_sort xs).length : ℚ) - 1) :=
          mul_le_mul_of_nonneg_right hdiv hN
      _ = ((np_sort xs).length : ℚ) - 1 := one_mul _

/-- C7: for a fixed simulation matrix and any two requested percentiles
`p ≤ q` in `[0, 100]`, the terminal-percentile value returned for `p` is at
most the value returned for `q`. -/
theorem terminal_percentiles_monotone (paths : List (List ℚ)) (ps : List ℚ)
    (p q vp vq : ℚ) (hp : 0 ≤ p) (hpq : p ≤ q) (hq : q ≤ 100)
    (hne : paths ≠ [])
    (hvp : (p, vp) ∈ calculate_percentiles paths ps)
    (hvq : (q, vq) ∈ calculate_percentiles paths ps) :
    vp ≤ vq := by
  simp only [calculate_percentiles, List.mem_map, Prod.mk.injEq] at hvp hvq
  obtain ⟨p', _, rfl, rfl⟩ := hvp
  obtain ⟨q', _, rfl, rfl⟩ := hvq
  have hfne : final_prices paths ≠ [] := by
    simpa [final_prices, List.map_eq_nil_iff] using hne
  exact np_percentile_mono (final_prices paths) hfne _ _ hp hpq hq

/-- Witness for C7: on the matrix `[[100, 110], [100, 90]]` with requested
percentiles 0 and 100, the returned values are 90 and 110, and 90 ≤ 110. -/
theorem terminal_percentiles_monotone_witness : (90 : ℚ) ≤ 110 :=
  terminal_percentiles_monotone [[100, 110], [100, 90]] [0, 100] 0 100 90 110
    (by norm_num) (by norm_num) (by norm_num) (by decide)
    (by norm_num [calculate_percentiles, np_percentile, np_sort, interpAt,
      final_prices, List.insertionSort, List.orderedInsert])
    (by norm_num [calculate_percentiles, np_percentile, np_sort, interpAt,
      final_prices, List.insertionSort, List.orderedInsert])

/-- C10: called without an explicit percentile list, `calculate_percentiles`
uses the default `[1, 5, 10, 25, 50, 75, 90, 95, 99]`, which contains 95 and
99 and therefore differs from the application layer's base list
`[1, 5, 10, 25, 50, 75, 90]`; and its result depends only on the final time
column of the simulation matrix. -/
theorem default_percentiles_final_column (paths1 paths2 : List (List ℚ))
    (ps : List ℚ) (h : final_prices paths1 = final_prices paths2) :
    calculate_percentiles_default paths1 =
      calculate_percentiles paths1 [1, 5, 10, 25, 50, 75, 90, 95, 99] ∧
    (95 : ℚ) ∈ analysisDefaultPercentiles ∧
    (99 : ℚ) ∈ analysisDefaultPercentiles ∧
    (95 : ℚ) ∉ appDefaultPercentiles ∧
    analysisDefaultPercentiles ≠ appDefaultPercentiles ∧
    calculate_percentiles paths1 ps = calculate_percentiles paths2 ps := by
  refine ⟨rfl, by decide, by decide, by decide, by decide, ?_⟩
  simp only [calculate_percentiles, h]

/-- Witness for C10: the matrices `[[1, 2]]` and `[[5, 2]]` share the final
column `[2]`, so the conclusions hold for them. -/
theorem default_percentiles_final_column_witness :
    calculate_percentiles_default [[(1 : ℚ), 2]] =
      calculate_percentiles [[(1 : ℚ), 2]] [1, 5, 10, 25, 50, 75, 90, 95, 99] ∧
    (95 : ℚ) ∈ analysisDefaultPercentiles ∧
    (99 : ℚ) ∈ analysisDefaultPercentiles ∧
    (95 : ℚ) ∉ appDefaultPercentiles ∧
    analysisDefaultPercentiles ≠ appDefaultPercentiles ∧
    calculate_percentiles [[(1 : ℚ), 2]] [50] =
      calculate_percentiles [[(5 : ℚ), 2]] [50] :=
  default_percentiles_final_column [[(1 : ℚ), 2]] [[(5 : ℚ), 2]] [50] (by decide)

/-! ## Extra-percentile parsing (`run_analysis`, app.py lines 41-52)

The handler starts from `percentiles_list = [1, 5, 10, 25, 50, 75, 90]` and,
when the extra-percentile textbox is non-empty, evaluates
`[float(p.strip()) for p in extra_percentiles_str.split(',') if p.strip()]`
inside `try ... except ValueError: pass`, then extends and re-sorts the
de-duplicated list.  A `ValueError` raised by any token aborts the whole
comprehension, so the `extend` never runs.  Strings are handled as their
character lists; `float` is modelled on plain signed decimal literals, which
covers every numeric token the scenario uses, and rejects everything else
with `none` (the `ValueError`). -/

/-- Model of `str.split(sep)` for a one-character separator: split the
character list, keeping empty segments. -/
def splitOnChar (sep : Char) (cs : List Char) : List (List Char) :=
  cs.foldr (fun c acc =>
    match acc with
    | [] => [[c]]
    | cur :: rest => if c = sep then [] :: cur :: rest else (c :: cur) :: rest) [[]]

/-- Whitespace recognised by `str.strip` (the forms that matter here). -/
def isSpaceChar (c : Char) : Bool := c = ' ' || c = '\t' || c = '\n' || c = '\r'

/-- Model of `str.strip()`: drop whitespace from both ends. -/
def stripChars (cs : List Char) : List Char :=
  ((cs.dropWhile isSpaceChar).reverse.dropWhile isSpaceChar).reverse

/-- The natural number denoted by a list of decimal digits. -/
def natOfDigits (cs : List Char) : ℕ := cs.foldl (fun n c => 10 * n + (c.toNat - 48)) 0

/-- Model of Python's `float` on plain signed decimal literals
(`[+-]? digits [. digits]`): `none` models the `ValueError` raised on any
other token, such as `"abc"`. -/
def parseFloat? (cs : List Char) : Option ℚ :=
  let core := fun (ds : List Char) (sign : ℚ) =>
    match splitOnChar '.' ds with
    | [ip] =>
      if ip.all Char.isDigit && !ip.isEmpty then
        some (sign * (natOfDigits ip : ℚ))
      else none
    | [ip, fp] =>
      if ip.all Char.isDigit && fp.all Char.isDigit && !(ip.isEmpty && fp.isEmpty) then
        some (sign * ((natOfDigits ip : ℚ) + (natOfDigits fp : ℚ) / (10 : ℚ) ^ fp.length))
      else none
    | _ => none
  match cs with
  | '-' :: rest => core rest (-1)
  | '+' :: rest => core rest 1
  | _ => core cs 1

/-- The guarded comprehension of app.py line 46:
`[float(p.strip()) for p in extra_percentiles_str.split(',') if p.strip()]`.
`none` models the comprehension aborting with `ValueError` on the first
non-numeric token. -/
def parse_extras (s : String) : Option (List ℚ) :=
  (((splitOnChar ',' s.data).map stripChars).filter (fun t => !t.isEmpty)).mapM parseFloat?

/-- The percentile list built by `run_analysis` (app.py lines 41-52): the
base list, extended by the parsed extras and re-sorted without duplicates
when parsing succeeds, and left untouched when the textbox is empty or any
token raises (`except ValueError: pass`). -/
def run_analysis_percentiles (extra : String) : List ℚ :=
  if extra = "" then appDefaultPercentiles
  else
    match parse_extras extra with
    | none => appDefaultPercentiles
    | some extras =>
      List.insertionSort (· ≤ ·) ((appDefaultPercentiles ++ extras).dedup)

/-- Counterexample to C4: on the input `"2.5, abc, 97.5"`, `float("abc")`
raises `ValueError` inside the comprehension, so the whole extras list is
discarded: the resulting percentile list is the unchanged default and
contains neither 2.5 nor 97.5 — not just `"abc"` is lost. -/
theorem extras_partial_drop_counterexample :
    run_analysis_percentiles "2.5, abc, 97.5" = [1, 5, 10, 25, 50, 75, 90] ∧
    (2.5 : ℚ) ∉ run_analysis_percentiles "2.5, abc, 97.5" ∧
    (97.5 : ℚ) ∉ run_analysis_percentiles "2.5, abc, 97.5" := by
  have h : run_analysis_percentiles "2.5, abc, 97.5" = [1, 5, 10, 25, 50, 75, 90] := by
    decide
  refine ⟨h, ?_, ?_⟩ <;> rw [h] <;> norm_num

/-- C4 amended: a non-numeric token in the extra-percentile input drops the
ENTIRE extras portion, not only the malformed token: `"2.5, abc, 97.5"`
leaves the list at the default (2.5 and 97.5 are lost along with `"abc"`)
and the request does not fail, while the fully numeric `"2.5, 97.5"` does
extend the sorted list. -/
theorem extras_all_or_nothing :
    run_analysis_percentiles "2.5, abc, 97.5" = appDefaultPercentiles ∧
    run_analysis_percentiles "2.5, 97.5" = [1, 2.5, 5, 10, 25, 50, 75, 90, 97.5] := by
  constructor
  · decide
  · have h : parse_extras "2.5, 97.5" = some [5/2, 195/2] := by
      simp +decide [parse_extras, parseFloat?, splitOnChar, stripChars, natOfDigits,
        List.mapM.loop, Option.bind]
      norm_num
    rw [run_analysis_percentiles, if_neg (by decide), h]
    norm_num [appDefaultPercentiles, List.dedup_cons_of_not_mem,
      List.insertionSort, List.orderedInsert]

end Equity
